import Mathlib

/-!
# dbuz: filter derivation, body conversion and the once / publish commands

A shallow embedding of `dbuz.go`.

* A Go `string` is a sequence of bytes (`GoString`); `len` is the number of bytes.
* A run-time panic of the Go program (index or slice bound out of range, failed type
  assertion) is the `Exec.panic` result, so that "never fails" is a statement to prove.
* The connection `conn`, the signal channel `ch` and the two output streams are
  explicit state (`Conn`, `World`).
-/

namespace Dbuz

/-! ## Strings -/

/-- A Go string: an immutable sequence of bytes. -/
abbrev GoString := List UInt8

/-- The bytes (UTF-8) of a string literal of the source. -/
def str (s : String) : GoString := s.toUTF8.data.toList

/-! ## Panics -/

/-- The run-time panics the embedded code can raise. -/
inductive Panic where
  /-- index out of range `[i]` with length `len` -/
  | indexOutOfRange (i : Int) (len : Nat)
  /-- slice bounds out of range `[lo:hi]` with capacity `cap` -/
  | sliceOutOfRange (lo hi : Int) (cap : Nat)
  /-- interface conversion: the dynamic type is not `string` -/
  | interfaceConversion
  /-- invalid memory address or nil pointer dereference -/
  | nilDereference
  deriving DecidableEq, Repr

/-- The result of running Go code that may panic. -/
inductive Exec (α : Type) where
  | ok (v : α)
  | panic (p : Panic)
  deriving DecidableEq, Repr

namespace Exec

/-- Sequencing: a panic aborts what follows. -/
def bind {α β : Type} (x : Exec α) (f : α → Exec β) : Exec β :=
  match x with
  | ok v => f v
  | panic p => panic p

instance : Monad Exec where
  pure := Exec.ok
  bind := Exec.bind

end Exec

/-- Go `xs[i]`: panics when `i` is not in `[0, len(xs))`. -/
def index {α : Type} (xs : List α) (i : Int) : Exec α :=
  if i < 0 then .panic (.indexOutOfRange i xs.length)
  else
    match xs.get? i.toNat with
    | some x => .ok x
    | none => .panic (.indexOutOfRange i xs.length)

/-- Go `xs[lo:hi]`: panics unless `0 ≤ lo ≤ hi ≤ cap(xs)` (here `cap = len`). -/
def slice {α : Type} (xs : List α) (lo hi : Int) : Exec (List α) :=
  if 0 ≤ lo ∧ lo ≤ hi ∧ hi ≤ (xs.length : Int) then
    .ok ((xs.take hi.toNat).drop lo.toNat)
  else .panic (.sliceOutOfRange lo hi xs.length)

/-- Go `xs[i] = v`: panics when `i` is not in `[0, len(xs))`. -/
def setIndex {α : Type} (xs : List α) (i : Nat) (v : α) : Exec (List α) :=
  if i < xs.length then .ok (xs.set i v)
  else .panic (.indexOutOfRange i xs.length)

/-! ## The functions of package `strings` that the program calls -/

namespace strings

/-- `strings.HasPrefix`: `len(s) >= len(prefix) && s[:len(prefix)] == prefix`. -/
def HasPrefix (s pre : GoString) : Bool :=
  decide (pre.length ≤ s.length) && (s.take pre.length == pre)

/-- `strings.HasSuffix`: `len(s) >= len(suffix) && s[len(s)-len(suffix):] == suffix`. -/
def HasSuffix (s suffix : GoString) : Bool :=
  decide (suffix.length ≤ s.length) && (s.drop (s.length - suffix.length) == suffix)

/-- `strings.TrimSuffix`: `s[:len(s)-len(suffix)]` when `s` has the suffix, else `s`. -/
def TrimSuffix (s suffix : GoString) : GoString :=
  if HasSuffix s suffix then s.take (s.length - suffix.length) else s

/-- `strings.Index`: the index of the first instance of `sep` in `s`, `none` for Go's `-1`. -/
def Index : GoString → GoString → Option Nat
  | [], sep => if sep = [] then some 0 else none
  | c :: cs, sep =>
    if HasPrefix (c :: cs) sep then some 0
    else (Index cs sep).map (· + 1)

/-- The loop of `genSplit`: cut at the first instance of `sep`, at most `n` times; what is
left is the last element. -/
def splitLoop : Nat → GoString → GoString → List GoString
  | 0, s, _ => [s]
  | n + 1, s, sep =>
    match Index s sep with
    | none => [s]
    | some m => s.take m :: splitLoop n (s.drop (m + sep.length)) sep

/-- `strings.Split(s, sep)` for a non-empty `sep`: the substrings of `s` between the
instances of `sep`. Go bounds the loop by `Count(s, sep)`, the number of cuts the loop can
make; `len(s)` is a bound of that count, and the loop stops by itself when `Index` finds
nothing. For the empty separator Go explodes `s` into its UTF-8 sequences; the program
never passes one, and this model gives the single bytes there. -/
def Split (s sep : GoString) : List GoString :=
  if sep = [] then s.map fun b => [b]
  else splitLoop s.length s sep

/-- `strings.Join`: the elements concatenated, `sep` between neighbours. -/
def Join : List GoString → GoString → GoString
  | [], _ => []
  | [e], _ => e
  | e :: es, sep => e ++ sep ++ Join es sep

end strings

/-! ## Data model -/

/-- `dbus.ObjectPath`: a named string type. -/
abbrev ObjectPath := GoString

/-- `dbus.MatchOption` as the program builds it: one constructor per option function.
The spec calls them `PathPrefix`, `ExactPath`, `Member` and `Interface`. -/
inductive MatchOption where
  /-- `dbus.WithMatchPathNamespace(p)`, match rule `path_namespace` (spec: `PathPrefix`) -/
  | WithMatchPathNamespace (p : ObjectPath)
  /-- `dbus.WithMatchObjectPath(p)`, match rule `path` (spec: `ExactPath`) -/
  | WithMatchObjectPath (p : ObjectPath)
  /-- `dbus.WithMatchMember(m)`, match rule `member` (spec: `Member`) -/
  | WithMatchMember (m : GoString)
  /-- `dbus.WithMatchInterface(i)`, match rule `interface` (spec: `Interface`) -/
  | WithMatchInterface (i : GoString)
  deriving DecidableEq, Repr

open MatchOption

/-- A Go `interface{}` value as it occurs in a signal body: the dynamic type decides the
constructor. `Nil` is the zero value of `interface{}`. -/
inductive Value where
  | Nil
  | String (s : GoString)
  | Int (n : Int)
  | Bool (b : Bool)
  | ObjectPath (p : GoString)
  deriving DecidableEq, Repr

/-- The flags and arguments the program reads from `*cli.Context`. -/
structure Context where
  /-- `c.String("path")` -/
  path : GoString
  /-- `c.String("name")` -/
  name : GoString
  /-- `c.Bool("verbose")` -/
  verbose : Bool
  /-- `c.Args().Slice()` -/
  args : List GoString
  deriving DecidableEq, Repr

/-! ## `signalOptions` -/

/-- `signalOptions(c)`: the match options for the `path` and `name` flags. -/
def signalOptions (c : Context) : Exec (List MatchOption) := do
  let options : List MatchOption := []
  -- path, either wildcard or verbatim
  let path := c.path
  let options :=
    if path.length > 0 then
      if strings.HasSuffix path (str "/*") then
        options ++ [WithMatchPathNamespace (strings.TrimSuffix path (str "/*"))]
      else
        options ++ [WithMatchObjectPath path]
    else options
  let name := c.name
  if name.length > 0 then do
    let sections := strings.Split name (str ".")
    -- last section is the signal name
    let last ← index sections ((sections.length : Int) - 1)
    let options := options ++ [WithMatchMember last]
    -- previous sections are the interface
    if sections.length > 1 then do
      let front ← slice sections 0 ((sections.length : Int) - 1)
      pure (options ++ [WithMatchInterface (strings.Join front (str "."))])
    else pure options
  else pure options

/-! ## Body conversion -/

/-- The loop of `stringsToIterfaces`: `ret[i] = str` for the elements from index `i` on. -/
def stringsToIterfacesLoop : Nat → List GoString → List Value → Exec (List Value)
  | _, [], ret => .ok ret
  | i, s :: rest, ret => do
    let ret ← setIndex ret i (Value.String s)
    stringsToIterfacesLoop (i + 1) rest ret

/-- `stringsToIterfaces(input)`. -/
def stringsToIterfaces (input : List GoString) : Exec (List Value) :=
  stringsToIterfacesLoop 0 input (List.replicate input.length Value.Nil)

/-- The type assertion `v.(string)`: panics unless the dynamic type is `string`. -/
def assertString : Value → Exec GoString
  | Value.String s => .ok s
  | _ => .panic .interfaceConversion

/-- The loop of `iterfacesToStrings`: `ret[i] = str.(string)` from index `i` on. -/
def iterfacesToStringsLoop : Nat → List Value → List GoString → Exec (List GoString)
  | _, [], ret => .ok ret
  | i, v :: rest, ret => do
    let s ← assertString v
    let ret ← setIndex ret i s
    iterfacesToStringsLoop (i + 1) rest ret

/-- `iterfacesToStrings(input)`. -/
def iterfacesToStrings (input : List Value) : Exec (List GoString) :=
  iterfacesToStringsLoop 0 input (List.replicate input.length [])

/-- The expression `strings.Join(iterfacesToStrings(v.Body), " ")` of both subscriber
commands: the line printed for a signal body. -/
def renderBody (body : List Value) : Exec GoString := do
  let strs ← iterfacesToStrings body
  pure (strings.Join strs (str " "))

/-! ## The connection, the channel and the output streams -/

/-- A Go `error` value as the commands see it. -/
inductive GoError where
  /-- an error reported by the bus library -/
  | bus (msg : String)
  /-- the result of `fmt.Errorf(format, err)` with a `%w` verb -/
  | wrapped (format : String) (err : GoError)
  deriving DecidableEq, Repr

/-- A `*dbus.Signal` received on the channel. -/
structure Signal where
  Sender : GoString
  Path : ObjectPath
  Name : GoString
  Body : List Value
  deriving DecidableEq, Repr

/-- What the bus library answers to the two calls whose result is an `error`
(`none` is Go's `nil`). The library is outside the program; every answer is possible. -/
structure Conn where
  /-- `conn.AddMatchSignal(options...)` -/
  AddMatchSignal : List MatchOption → Option GoError
  /-- `conn.Emit(path, name, values...)` -/
  Emit : ObjectPath → GoString → List Value → Option GoError

/-- The state the commands act on. -/
structure World where
  /-- the signals the connection delivers on the channel `ch`, oldest first -/
  ch : List Signal
  /-- after those signals the channel is closed (the connection was torn down): a further
  receive yields the `nil` signal at once instead of waiting -/
  chClosed : Bool
  /-- the bytes written to standard output so far -/
  stdout : GoString
  /-- the bytes written to standard error so far -/
  stderr : GoString
  /-- the option lists passed to `conn.AddMatchSignal` so far -/
  matchCalls : List (List MatchOption)
  /-- the arguments of the calls of `conn.Emit` so far -/
  emitCalls : List (ObjectPath × GoString × List Value)
  /-- the deferred `conn.Close()` has run -/
  closed : Bool
  deriving DecidableEq, Repr

/-- How the `Action` of a command ends. -/
inductive Outcome where
  /-- the action returned `err` (`none` is `nil`) -/
  | returned (err : Option GoError)
  /-- the action panicked -/
  | panicked (p : Panic)
  /-- the action waits on an open channel on which nothing more arrives -/
  | blocked
  deriving DecidableEq, Repr

/-- The process exit status that `main` derives from an outcome: `0` after `nil`, `1` after
`log.Fatal(err)`, `2` after a panic; none while the action is blocked. -/
def exitStatus : Outcome → Option Nat
  | .returned none => some 0
  | .returned (some _) => some 1
  | .panicked _ => some 2
  | .blocked => none

/-- The deferred `conn.Close()`, run when the action returns or panics. -/
def World.close (w : World) : World := { w with closed := true }

/-- The `Action` of the `once` command. -/
def once (conn : Conn) (c : Context) (w : World) : Outcome × World :=
  -- defer conn.Close()
  match signalOptions c with
  | .panic p => (.panicked p, w.close)
  | .ok options =>
    let w := { w with matchCalls := w.matchCalls ++ [options] }
    match conn.AddMatchSignal options with
    | some err => (.returned (some (.wrapped "Signal match error. %w" err)), w.close)
    | none =>
      -- ch := make(chan *dbus.Signal, 1); conn.Signal(ch); v := <-ch
      match w.ch with
      | [] =>
        -- on a closed channel v is nil and v.Body dereferences it
        if w.chClosed then (.panicked .nilDereference, w.close) else (.blocked, w)
      | v :: later =>
        let w := { w with ch := later }
        match renderBody v.Body with
        | .panic p => (.panicked p, w.close)
        | .ok line =>
          -- fmt.Printf("%s", line)
          let w := { w with stdout := w.stdout ++ line }
          (.returned none, w.close)

/-- The `Action` of the `publish` command. -/
def publish (conn : Conn) (c : Context) (w : World) : Outcome × World :=
  -- defer conn.Close()
  match stringsToIterfaces c.args with
  | .panic p => (.panicked p, w.close)
  | .ok body =>
    -- the error that conn.Emit returns is not bound to anything
    let _ := conn.Emit c.path c.name body
    let w := { w with emitCalls := w.emitCalls ++ [(c.path, c.name, body)] }
    (.returned none, w.close)

/-! ## Classifying match options -/

/-- A path rule: `WithMatchObjectPath` or `WithMatchPathNamespace`. -/
def MatchOption.isPath : MatchOption → Bool
  | WithMatchPathNamespace _ => true
  | WithMatchObjectPath _ => true
  | _ => false

/-- A member rule. -/
def MatchOption.isMember : MatchOption → Bool
  | WithMatchMember _ => true
  | _ => false

/-- An interface rule. -/
def MatchOption.isInterface : MatchOption → Bool
  | WithMatchInterface _ => true
  | _ => false

/-- The place of a rule kind in the emission order: path, member, interface. -/
def MatchOption.rank : MatchOption → Nat
  | WithMatchPathNamespace _ => 0
  | WithMatchObjectPath _ => 0
  | WithMatchMember _ => 1
  | WithMatchInterface _ => 2

/-- The byte of the character `.`. -/
def dot : UInt8 := 46

/-- Proof device: `s` cut at every occurrence of the byte `d`. -/
def cutAt (d : UInt8) : GoString → List GoString
  | [] => [[]]
  | c :: cs =>
    if c = d then [] :: cutAt d cs
    else
      match cutAt d cs with
      | [] => [[c]]
      | h :: t => (c :: h) :: t

/-- Proof device: the options that the `path` flag contributes. -/
def pathPart (path : GoString) : List MatchOption :=
  if path = [] then []
  else if strings.HasSuffix path (str "/*") then
    [WithMatchPathNamespace (strings.TrimSuffix path (str "/*"))]
  else [WithMatchObjectPath path]

/-- Proof device: the options that the `name` flag contributes. -/
def namePart (name : GoString) : List MatchOption :=
  if name = [] then []
  else if 1 < (cutAt dot name).length then
    [WithMatchMember ((cutAt dot name).getLastD []),
      WithMatchInterface (strings.Join (cutAt dot name).dropLast [dot])]
  else [WithMatchMember ((cutAt dot name).getLastD [])]

/-! ## Lemmas: results of possibly panicking code -/

@[simp] theorem Exec.pure_eq {α : Type} (a : α) : (pure a : Exec α) = Exec.ok a := rfl

@[simp] theorem Exec.ok_bind {α β : Type} (a : α) (f : α → Exec β) :
    (Exec.ok a >>= f) = f a := rfl

@[simp] theorem Exec.panic_bind {α β : Type} (p : Panic) (f : α → Exec β) :
    (Exec.panic p >>= f) = Exec.panic p := rfl

theorem index_last {α : Type} (xs : List α) (h : xs ≠ []) :
    index xs ((xs.length : Int) - 1) = .ok (xs.getLast h) := by
  have hpos : 0 < xs.length := List.length_pos.mpr h
  have hnat : ((xs.length : Int) - 1).toNat = xs.length - 1 := by omega
  have hlt : ¬ ((xs.length : Int) - 1 < 0) := by omega
  unfold index
  rw [if_neg hlt, hnat, List.getLast_eq_getElem xs h]
  rw [List.get?_eq_get (by omega : xs.length - 1 < xs.length)]
  rfl

theorem slice_front {α : Type} (xs : List α) (h : xs ≠ []) :
    slice xs 0 ((xs.length : Int) - 1) = .ok xs.dropLast := by
  have hpos : 0 < xs.length := List.length_pos.mpr h
  have hnat : ((xs.length : Int) - 1).toNat = xs.length - 1 := by omega
  unfold slice
  rw [if_pos (by omega), hnat]
  simp [List.dropLast_eq_take]

/-! ## Lemmas: package strings -/

theorem str_slash_star : str "/*" = [47, 42] := by decide
theorem str_dot : str "." = [dot] := by decide

theorem HasSuffix_iff (s suffix : GoString) :
    strings.HasSuffix s suffix = true ↔ ∃ p, s = p ++ suffix := by
  unfold strings.HasSuffix
  simp only [Bool.and_eq_true, decide_eq_true_eq, beq_iff_eq]
  constructor
  · rintro ⟨_, h2⟩
    refine ⟨s.take (s.length - suffix.length), ?_⟩
    conv_lhs => rw [← List.take_append_drop (s.length - suffix.length) s]
    rw [h2]
  · rintro ⟨p, rfl⟩
    simp

theorem TrimSuffix_append (p suffix : GoString) :
    strings.TrimSuffix (p ++ suffix) suffix = p := by
  unfold strings.TrimSuffix
  rw [if_pos ((HasSuffix_iff _ _).mpr ⟨p, rfl⟩)]
  simp

theorem Index_byte_cons (c d : UInt8) (cs : GoString) :
    strings.Index (c :: cs) [d] = if c = d then some 0 else (strings.Index cs [d]).map (· + 1) := by
  simp [strings.Index, strings.HasPrefix]

theorem Index_byte_nil (d : UInt8) : strings.Index [] [d] = none := by
  simp [strings.Index]

theorem splitLoop_eq_cutAt (d : UInt8) (s : GoString) :
    ∀ n, s.count d ≤ n → strings.splitLoop n s [d] = cutAt d s := by
  induction s with
  | nil =>
    intro n _
    cases n <;> simp [strings.splitLoop, Index_byte_nil, cutAt]
  | cons c cs ih =>
    intro n hn
    by_cases hc : c = d
    · subst hc
      rw [List.count_cons_self] at hn
      obtain ⟨k, rfl⟩ : ∃ k, n = k + 1 := ⟨n - 1, by omega⟩
      simp [strings.splitLoop, Index_byte_cons, cutAt, ih k (by omega)]
    · rw [List.count_cons_of_ne (Ne.symm hc)] at hn
      have hcut := ih n hn
      cases n with
      | zero =>
        simp only [strings.splitLoop] at hcut ⊢
        simp [cutAt, hc, ← hcut]
      | succ k =>
        simp only [strings.splitLoop, Index_byte_cons, if_neg hc] at hcut ⊢
        cases hi : strings.Index cs [d] with
        | none =>
          rw [hi] at hcut
          simp at hcut ⊢
          simp [cutAt, hc, ← hcut]
        | some m =>
          rw [hi] at hcut
          simp at hcut ⊢
          simp [cutAt, hc, ← hcut]

theorem Split_byte (d : UInt8) (s : GoString) : strings.Split s [d] = cutAt d s := by
  unfold strings.Split
  rw [if_neg (by simp)]
  exact splitLoop_eq_cutAt d s s.length (List.count_le_length d s)

theorem cutAt_ne_nil (d : UInt8) (s : GoString) : cutAt d s ≠ [] := by
  cases s with
  | nil => simp [cutAt]
  | cons c cs =>
    by_cases hc : c = d
    · simp [cutAt, hc]
    · cases h : cutAt d cs <;> simp [cutAt, hc, h]

theorem Join_cons_cons (e f : GoString) (es : List GoString) (sep : GoString) :
    strings.Join (e :: f :: es) sep = e ++ sep ++ strings.Join (f :: es) sep := rfl

theorem Join_cutAt (d : UInt8) (s : GoString) : strings.Join (cutAt d s) [d] = s := by
  induction s with
  | nil => simp [cutAt, strings.Join]
  | cons c cs ih =>
    by_cases hc : c = d
    · subst hc
      cases h : cutAt c cs with
      | nil => exact absurd h (cutAt_ne_nil c cs)
      | cons a t =>
        rw [h] at ih
        simp [cutAt, h, Join_cons_cons, ih]
    · cases h : cutAt d cs with
      | nil => exact absurd h (cutAt_ne_nil d cs)
      | cons a t =>
        rw [h] at ih
        cases t with
        | nil =>
          simp [strings.Join] at ih
          simp [cutAt, hc, h, strings.Join, ih]
        | cons b t2 =>
          rw [Join_cons_cons] at ih
          have hcut : cutAt d (c :: cs) = (c :: a) :: b :: t2 := by simp [cutAt, hc, h]
          rw [hcut, Join_cons_cons, ← ih]
          simp

theorem cutAt_not_mem (d : UInt8) (s : GoString) : ∀ seg ∈ cutAt d s, d ∉ seg := by
  induction s with
  | nil => simp [cutAt]
  | cons c cs ih =>
    by_cases hc : c = d
    · subst hc
      intro seg hseg
      simp only [cutAt, if_true, List.mem_cons] at hseg
      rcases hseg with rfl | hseg
      · simp
      · exact ih seg hseg
    · cases h : cutAt d cs with
      | nil => exact absurd h (cutAt_ne_nil d cs)
      | cons a t =>
        rw [h] at ih
        intro seg hseg
        simp only [cutAt, if_neg hc, h, List.mem_cons] at hseg
        rcases hseg with rfl | hseg
        · have := ih a (by simp)
          simp [this, Ne.symm hc]
        · exact ih seg (by simp [hseg])

theorem Join_append_singleton (front : List GoString) (last sep : GoString)
    (h : front ≠ []) :
    strings.Join (front ++ [last]) sep = strings.Join front sep ++ sep ++ last := by
  induction front with
  | nil => exact absurd rfl h
  | cons e es ih =>
    cases es with
    | nil => simp [strings.Join]
    | cons f fs =>
      have := ih (by simp)
      simp only [List.cons_append] at this ⊢
      rw [Join_cons_cons, this, Join_cons_cons]
      simp

theorem cutAt_length_one_iff (d : UInt8) (s : GoString) :
    (cutAt d s).length = 1 ↔ d ∉ s := by
  constructor
  · intro h
    obtain ⟨a, ha⟩ := List.length_eq_one.mp h
    have hj := Join_cutAt d s
    rw [ha] at hj
    simp only [strings.Join] at hj
    subst hj
    exact cutAt_not_mem d a a (by rw [ha]; simp)
  · intro h
    induction s with
    | nil => simp [cutAt]
    | cons c cs ih =>
      have hc : c ≠ d := fun e => h (by simp [e])
      have hcs : d ∉ cs := fun e => h (by simp [e])
      have := ih hcs
      obtain ⟨a, ha⟩ := List.length_eq_one.mp this
      simp [cutAt, hc, ha]

theorem getLastD_eq_getLast {α : Type} (xs : List α) (h : xs ≠ []) (d : α) :
    xs.getLastD d = xs.getLast h := by
  rw [List.getLastD_eq_getLast?, List.getLast?_eq_getLast _ h]
  rfl

theorem signalOptions_eq (c : Context) :
    signalOptions c = .ok (pathPart c.path ++ namePart c.name) := by
  have hne := cutAt_ne_nil dot c.name
  unfold signalOptions pathPart namePart
  simp only [str_dot, Split_byte, index_last _ hne, slice_front _ hne, Exec.ok_bind,
    Exec.pure_eq, List.nil_append, gt_iff_lt, List.length_pos, ne_eq,
    getLastD_eq_getLast _ hne]
  by_cases hp : c.path = [] <;> by_cases hn : c.name = [] <;>
    by_cases hs : strings.HasSuffix c.path (str "/*") = true <;>
    by_cases hl : 1 < (cutAt dot c.name).length <;>
    simp [hp, hn, hs, hl]

/-! ## Lemmas: body conversion -/

theorem take_succ_set {α : Type} (xs : List α) (i : Nat) (v : α) (h : i < xs.length) :
    (xs.set i v).take (i + 1) = xs.take i ++ [v] := by
  rw [List.set_eq_take_append_cons_drop, if_pos h]
  have hlen : (xs.take i).length = i := by simp; omega
  rw [List.take_append_eq_append_take, hlen]
  simp [List.take_of_length_le, hlen]

theorem stringsToIterfacesLoop_eq (rest : List GoString) :
    ∀ (i : Nat) (ret : List Value), ret.length = i + rest.length →
      stringsToIterfacesLoop i rest ret = .ok (ret.take i ++ rest.map Value.String) := by
  induction rest with
  | nil =>
    intro i ret h
    simp at h
    simp [stringsToIterfacesLoop, ← h]
  | cons s rest ih =>
    intro i ret h
    simp only [List.length_cons] at h
    have hi : i < ret.length := by omega
    simp only [stringsToIterfacesLoop, setIndex, if_pos hi, Exec.ok_bind]
    rw [ih (i + 1) (ret.set i (Value.String s)) (by simp; omega), take_succ_set _ _ _ hi]
    simp

theorem stringsToIterfaces_eq (input : List GoString) :
    stringsToIterfaces input = .ok (input.map Value.String) := by
  unfold stringsToIterfaces
  rw [stringsToIterfacesLoop_eq input 0 _ (by simp)]
  simp

theorem iterfacesToStringsLoop_strings (strs : List GoString) :
    ∀ (i : Nat) (ret : List GoString), ret.length = i + strs.length →
      iterfacesToStringsLoop i (strs.map Value.String) ret = .ok (ret.take i ++ strs) := by
  induction strs with
  | nil =>
    intro i ret h
    simp at h
    simp [iterfacesToStringsLoop, ← h]
  | cons s rest ih =>
    intro i ret h
    simp only [List.length_cons] at h
    have hi : i < ret.length := by omega
    simp only [List.map_cons, iterfacesToStringsLoop, assertString, setIndex, if_pos hi,
      Exec.ok_bind]
    rw [ih (i + 1) (ret.set i s) (by simp; omega), take_succ_set _ _ _ hi]
    simp

theorem iterfacesToStrings_strings (strs : List GoString) :
    iterfacesToStrings (strs.map Value.String) = .ok strs := by
  unfold iterfacesToStrings
  rw [iterfacesToStringsLoop_strings strs 0 _ (by simp)]
  simp

theorem assertString_panic (v : Value) (h : ∀ s, v ≠ Value.String s) :
    assertString v = .panic .interfaceConversion := by
  cases v <;> first | rfl | exact absurd rfl (h _)

theorem iterfacesToStringsLoop_panic (rest : List Value) :
    ∀ (i : Nat) (ret : List GoString), ret.length = i + rest.length →
      (∃ v ∈ rest, ∀ s, v ≠ Value.String s) →
      iterfacesToStringsLoop i rest ret = .panic .interfaceConversion := by
  induction rest with
  | nil =>
    intro i ret _ h
    obtain ⟨v, hv, _⟩ := h
    simp at hv
  | cons x rest ih =>
    intro i ret hlen h
    simp only [List.length_cons] at hlen
    have hi : i < ret.length := by omega
    by_cases hx : ∃ s, x = Value.String s
    · obtain ⟨s, rfl⟩ := hx
      obtain ⟨v, hv, hns⟩ := h
      simp only [List.mem_cons] at hv
      rcases hv with rfl | hv
      · exact absurd rfl (hns s)
      · simp only [iterfacesToStringsLoop, assertString, setIndex, if_pos hi, Exec.ok_bind]
        exact ih (i + 1) _ (by simp; omega) ⟨v, hv, hns⟩
    · have hx2 : ∀ s, x ≠ Value.String s := fun s e => hx ⟨s, e⟩
      simp [iterfacesToStringsLoop, assertString_panic x hx2]

theorem iterfacesToStrings_panic (body : List Value)
    (h : ∃ v ∈ body, ∀ s, v ≠ Value.String s) :
    iterfacesToStrings body = .panic .interfaceConversion :=
  iterfacesToStringsLoop_panic body 0 _ (by simp) h

theorem strings_or_not (body : List Value) :
    (∃ strs : List GoString, body = strs.map Value.String) ∨ (∃ v ∈ body, ∀ s, v ≠ Value.String s) := by
  induction body with
  | nil => exact Or.inl ⟨[], rfl⟩
  | cons x rest ih =>
    by_cases hx : ∃ s, x = Value.String s
    · obtain ⟨s, rfl⟩ := hx
      rcases ih with ⟨strs, rfl⟩ | ⟨v, hv, hns⟩
      · exact Or.inl ⟨s :: strs, rfl⟩
      · exact Or.inr ⟨v, by simp [hv], hns⟩
    · exact Or.inr ⟨x, by simp, fun s e => hx ⟨s, e⟩⟩

theorem renderBody_strings (strs : List GoString) :
    renderBody (strs.map Value.String) = .ok (strings.Join strs (str " ")) := by
  simp [renderBody, iterfacesToStrings_strings]

theorem renderBody_panic (body : List Value)
    (h : ∃ v ∈ body, ∀ s, v ≠ Value.String s) :
    renderBody body = .panic .interfaceConversion := by
  simp [renderBody, iterfacesToStrings_panic body h]

/-! ## Lemmas: the two parts of the option list -/

theorem namePart_kinds (name : GoString) :
    ∀ o ∈ namePart name, o.isPath = false := by
  intro o ho
  unfold namePart at ho
  split_ifs at ho <;> simp at ho <;> rcases ho with rfl | rfl <;> rfl

theorem pathPart_kinds (path : GoString) :
    ∀ o ∈ pathPart path, o.isPath = true := by
  intro o ho
  unfold pathPart at ho
  split_ifs at ho <;> simp at ho <;> subst ho <;> rfl

theorem pathPart_of_suffix (p : GoString) :
    pathPart (p ++ str "/*") = [WithMatchPathNamespace p] := by
  unfold pathPart
  rw [if_neg (by simp [str_slash_star]), if_pos ((HasSuffix_iff _ _).mpr ⟨p, rfl⟩),
    TrimSuffix_append]

theorem pathPart_of_not_suffix (path : GoString) (h : path ≠ [])
    (hs : ¬ ∃ p, path = p ++ str "/*") : pathPart path = [WithMatchObjectPath path] := by
  unfold pathPart
  rw [if_neg h, if_neg (fun e => hs ((HasSuffix_iff _ _).mp e))]

/-! ## The claims -/

/-- C1: for a non-empty path the result of `signalOptions` starts with a path rule and holds
no other path rule. When the path ends with `/*`, i.e. is `p ++ "/*"`, the rule is
`WithMatchPathNamespace p` (spec: `PathPrefix`), the suffix taken off once; otherwise it is
`WithMatchObjectPath path` (spec: `ExactPath`). The two examples of the spec are included. -/
theorem signalOptions_path_rule (c : Context) (h : c.path ≠ []) :
    (∃ rule rest, signalOptions c = .ok (rule :: rest) ∧ rule.isPath = true ∧
      (∀ o ∈ rest, o.isPath = false) ∧
      (∀ p, c.path = p ++ str "/*" → rule = WithMatchPathNamespace p) ∧
      ((¬ ∃ p, c.path = p ++ str "/*") → rule = WithMatchObjectPath c.path)) ∧
    (∀ verbose args, signalOptions ⟨str "/a/b/*", str "", verbose, args⟩
      = .ok [WithMatchPathNamespace (str "/a/b")]) ∧
    (∀ verbose args, signalOptions ⟨str "/a/b", str "", verbose, args⟩
      = .ok [WithMatchObjectPath (str "/a/b")]) := by
  refine ⟨?_, ?_, ?_⟩
  · by_cases hs : ∃ p, c.path = p ++ str "/*"
    · obtain ⟨p, hp⟩ := hs
      refine ⟨WithMatchPathNamespace p, namePart c.name, ?_, rfl, namePart_kinds _, ?_, ?_⟩
      · rw [signalOptions_eq, hp, pathPart_of_suffix]
        rfl
      · intro q hq
        rw [hp] at hq
        rw [List.append_cancel_right hq]
      · intro hn
        exact absurd ⟨p, hp⟩ hn
    · refine ⟨WithMatchObjectPath c.path, namePart c.name, ?_, rfl, namePart_kinds _, ?_, ?_⟩
      · rw [signalOptions_eq, pathPart_of_not_suffix _ h hs]
        rfl
      · intro p hp
        exact absurd ⟨p, hp⟩ hs
      · intro _
        rfl
  · intro verbose args
    rw [signalOptions_eq]
    dsimp only
    decide
  · intro verbose args
    rw [signalOptions_eq]
    dsimp only
    decide

/-- Witness of C1 at the path `/a/b/*` and the name `org.foo.Bar`. -/
theorem signalOptions_path_rule_witness :
    (∃ rule rest, signalOptions ⟨str "/a/b/*", str "org.foo.Bar", false, []⟩
        = .ok (rule :: rest) ∧ rule.isPath = true ∧
      (∀ o ∈ rest, o.isPath = false) ∧
      (∀ p, str "/a/b/*" = p ++ str "/*" → rule = WithMatchPathNamespace p) ∧
      ((¬ ∃ p, str "/a/b/*" = p ++ str "/*") → rule = WithMatchObjectPath (str "/a/b/*"))) :=
  (signalOptions_path_rule ⟨str "/a/b/*", str "org.foo.Bar", false, []⟩ (by decide)).1

theorem namePart_eq_of_many (name : GoString) (h : 1 < (cutAt dot name).length) :
    namePart name = [WithMatchMember ((cutAt dot name).getLastD []),
      WithMatchInterface (strings.Join (cutAt dot name).dropLast [dot])] := by
  have hn : name ≠ [] := by
    rintro rfl
    simp [cutAt] at h
  unfold namePart
  rw [if_neg hn, if_pos h]

theorem namePart_eq_of_one (name : GoString) (hn : name ≠ [])
    (h : (cutAt dot name).length = 1) :
    namePart name = [WithMatchMember ((cutAt dot name).getLastD [])] := by
  unfold namePart
  rw [if_neg hn, if_neg (by omega)]

theorem pathPart_not_name (path : GoString) :
    ∀ o ∈ pathPart path, o.isMember = false ∧ o.isInterface = false := by
  intro o ho
  unfold pathPart at ho
  split_ifs at ho <;> simp at ho <;> subst ho <;> exact ⟨rfl, rfl⟩

theorem countP_pathPart_isMember (path : GoString) :
    (pathPart path).countP MatchOption.isMember = 0 := by
  rw [List.countP_eq_zero]
  intro o ho
  simp [(pathPart_not_name path o ho).1]

theorem countP_pathPart_isInterface (path : GoString) :
    (pathPart path).countP MatchOption.isInterface = 0 := by
  rw [List.countP_eq_zero]
  intro o ho
  simp [(pathPart_not_name path o ho).2]

/-- C2: for a non-empty name, with `sections` the result of splitting the name at `.`, the
result of `signalOptions` holds exactly one member rule, which carries the last section. With
more than one section it holds exactly one interface rule, right after the member rule,
carrying the other sections joined with `.`; with one section (a name without `.`) it holds
no interface rule. The two examples of the spec are included. -/
theorem signalOptions_member_interface (c : Context) (h : c.name ≠ []) :
    (∃ rules pre last,
      signalOptions c = .ok rules ∧
      (strings.Split c.name (str ".")).getLast? = some last ∧
      (∀ o ∈ pre, o.isMember = false ∧ o.isInterface = false) ∧
      rules.countP MatchOption.isMember = 1 ∧
      (1 < (strings.Split c.name (str ".")).length →
        rules = pre ++ [WithMatchMember last, WithMatchInterface
          (strings.Join (strings.Split c.name (str ".")).dropLast (str "."))] ∧
        rules.countP MatchOption.isInterface = 1) ∧
      ((strings.Split c.name (str ".")).length = 1 →
        rules = pre ++ [WithMatchMember last] ∧
        rules.countP MatchOption.isInterface = 0)) ∧
    ((strings.Split c.name (str ".")).length = 1 ↔ dot ∉ c.name) ∧
    (∀ verbose args, signalOptions ⟨str "", str "org.foo.Bar", verbose, args⟩
      = .ok [WithMatchMember (str "Bar"), WithMatchInterface (str "org.foo")]) ∧
    (∀ verbose args, signalOptions ⟨str "", str "Bar", verbose, args⟩
      = .ok [WithMatchMember (str "Bar")]) := by
  have hne := cutAt_ne_nil dot c.name
  rw [str_dot, Split_byte]
  refine ⟨?_, cutAt_length_one_iff dot c.name, ?_, ?_⟩
  · by_cases hl : 1 < (cutAt dot c.name).length
    · refine ⟨_, pathPart c.path, (cutAt dot c.name).getLastD [], signalOptions_eq c, ?_,
        pathPart_not_name _, ?_, ?_, ?_⟩
      · rw [List.getLastD_eq_getLast?, List.getLast?_eq_getLast _ hne]
        rfl
      · rw [namePart_eq_of_many _ hl, List.countP_append, countP_pathPart_isMember]
        rfl
      · intro _
        rw [namePart_eq_of_many _ hl, List.countP_append, countP_pathPart_isInterface]
        exact ⟨rfl, rfl⟩
      · intro h1
        omega
    · have h1 : (cutAt dot c.name).length = 1 := by
        have := List.length_pos.mpr hne
        omega
      refine ⟨_, pathPart c.path, (cutAt dot c.name).getLastD [], signalOptions_eq c, ?_,
        pathPart_not_name _, ?_, ?_, ?_⟩
      · rw [List.getLastD_eq_getLast?, List.getLast?_eq_getLast _ hne]
        rfl
      · rw [namePart_eq_of_one _ h h1, List.countP_append, countP_pathPart_isMember]
        rfl
      · intro h2
        omega
      · intro _
        rw [namePart_eq_of_one _ h h1, List.countP_append, countP_pathPart_isInterface]
        exact ⟨rfl, rfl⟩
  · intro verbose args
    rw [signalOptions_eq]
    dsimp only
    decide
  · intro verbose args
    rw [signalOptions_eq]
    dsimp only
    decide

/-- Witness of C2 at the path `/a/b` and the name `org.foo.Bar`. -/
theorem signalOptions_member_interface_witness :
    signalOptions ⟨str "/a/b", str "org.foo.Bar", false, []⟩
      = .ok [WithMatchObjectPath (str "/a/b"), WithMatchMember (str "Bar"),
          WithMatchInterface (str "org.foo")] ∧
    ((strings.Split (str "org.foo.Bar") (str ".")).length = 1 ↔ dot ∉ str "org.foo.Bar") :=
  ⟨by decide,
    (signalOptions_member_interface ⟨str "/a/b", str "org.foo.Bar", false, []⟩
      (by decide)).2.1⟩

theorem pathPart_nil : pathPart [] = [] := rfl

theorem namePart_nil : namePart [] = [] := rfl

theorem pairwise_rank (path name : GoString) :
    List.Pairwise (fun x y => MatchOption.rank x < MatchOption.rank y)
      (pathPart path ++ namePart name) := by
  unfold pathPart namePart
  split_ifs <;> simp [MatchOption.rank]

theorem namePart_member_or_interface (name : GoString) :
    ∀ o ∈ namePart name, o.isMember = true ∨ o.isInterface = true := by
  intro o ho
  unfold namePart at ho
  split_ifs at ho <;> simp at ho
  · rcases ho with rfl | rfl
    · exact Or.inl rfl
    · exact Or.inr rfl
  · subst ho
    exact Or.inl rfl

/-- C3: the result of `signalOptions` for a path and a name is the result for the path with
an empty name followed by the result for the name with an empty path. The first part holds
only path rules, the second only member and interface rules, and along the whole result the
rank of the rule kinds (path, member, interface) strictly increases: no member or interface
rule comes before a path rule, and no interface rule before a member rule. -/
theorem signalOptions_append (c : Context) :
    ∃ a b,
      signalOptions ⟨c.path, [], c.verbose, c.args⟩ = .ok a ∧
      signalOptions ⟨[], c.name, c.verbose, c.args⟩ = .ok b ∧
      signalOptions c = .ok (a ++ b) ∧
      (∀ o ∈ a, o.isPath = true) ∧
      (∀ o ∈ b, o.isPath = false ∧ (o.isMember = true ∨ o.isInterface = true)) ∧
      List.Pairwise (fun x y => MatchOption.rank x < MatchOption.rank y) (a ++ b) := by
  refine ⟨pathPart c.path, namePart c.name, ?_, ?_, signalOptions_eq c, pathPart_kinds _,
    ?_, pairwise_rank _ _⟩
  · rw [signalOptions_eq]
    simp [namePart_nil]
  · rw [signalOptions_eq]
    simp [pathPart_nil]
  · intro o ho
    exact ⟨namePart_kinds _ o ho, namePart_member_or_interface _ o ho⟩

/-- C4: `signalOptions` returns an option list for every context and never panics. The
split of any name at `.` has at least one section, so the index of the last section is in
range. For an empty path and an empty name the result is empty; an empty path gives no
path rule, an empty name gives no member and no interface rule. -/
theorem signalOptions_total (c : Context) :
    (∃ rules, signalOptions c = .ok rules) ∧
    (1 ≤ (strings.Split c.name (str ".")).length ∧
      ∃ last, index (strings.Split c.name (str "."))
        (((strings.Split c.name (str ".")).length : Int) - 1) = .ok last) ∧
    (∀ verbose args, signalOptions ⟨[], [], verbose, args⟩ = .ok []) ∧
    (∀ name verbose args rules, signalOptions ⟨[], name, verbose, args⟩ = .ok rules →
      ∀ o ∈ rules, o.isPath = false) ∧
    (∀ path verbose args rules, signalOptions ⟨path, [], verbose, args⟩ = .ok rules →
      ∀ o ∈ rules, o.isMember = false ∧ o.isInterface = false) := by
  refine ⟨⟨_, signalOptions_eq c⟩, ?_, ?_, ?_, ?_⟩
  · rw [str_dot, Split_byte]
    have hne := cutAt_ne_nil dot c.name
    exact ⟨List.length_pos.mpr hne, _, index_last _ hne⟩
  · intro verbose args
    rw [signalOptions_eq]
    rfl
  · intro name verbose args rules h
    rw [signalOptions_eq] at h
    injection h with h
    subst h
    simpa [pathPart_nil] using namePart_kinds name
  · intro path verbose args rules h
    rw [signalOptions_eq] at h
    injection h with h
    subst h
    simpa [namePart_nil] using pathPart_not_name path

/-- Witness of C4 at the empty path and the name `Bar`. -/
theorem signalOptions_total_witness :
    signalOptions ⟨[], str "Bar", false, []⟩ = .ok [WithMatchMember (str "Bar")] ∧
    ∀ o ∈ [WithMatchMember (str "Bar")], o.isPath = false :=
  ⟨by decide,
    (signalOptions_total ⟨[], [], false, []⟩).2.2.2.1 (str "Bar") false [] _ (by decide)⟩

theorem cutAt_parts (name : GoString) :
    dot ∉ (cutAt dot name).getLastD [] ∧
    (1 < (cutAt dot name).length →
      strings.Join (cutAt dot name).dropLast [dot] ++ [dot] ++ (cutAt dot name).getLastD []
        = name) ∧
    ((cutAt dot name).length = 1 → (cutAt dot name).getLastD [] = name) := by
  have hne := cutAt_ne_nil dot name
  have hlast := getLastD_eq_getLast _ hne ([] : GoString)
  have hsplit := List.dropLast_append_getLast hne
  have hjoin := Join_cutAt dot name
  refine ⟨?_, ?_, ?_⟩
  · rw [hlast]
    exact cutAt_not_mem dot name _ (List.getLast_mem hne)
  · intro hl
    have hfront : (cutAt dot name).dropLast ≠ [] := by
      intro e
      have := congrArg List.length e
      simp at this
      omega
    rw [hlast, ← Join_append_singleton _ _ _ hfront, hsplit, hjoin]
  · intro h1
    obtain ⟨a, ha⟩ := List.length_eq_one.mp h1
    rw [ha] at hjoin
    simp only [strings.Join] at hjoin
    rw [ha, hjoin]
    rfl

/-- C10: for a name that contains `.`, the result of `signalOptions` ends with a member rule
and an interface rule whose strings give the name back: interface, then `.`, then member.
For every non-empty name the string of the one member rule contains no `.` and is the name
itself or what follows a `.` of the name, hence the part after its last `.`. -/
theorem signalOptions_name_lossless (c : Context) :
    (dot ∈ c.name → ∃ pre m i,
      signalOptions c = .ok (pre ++ [WithMatchMember m, WithMatchInterface i]) ∧
      (∀ o ∈ pre, o.isPath = true) ∧
      i ++ str "." ++ m = c.name) ∧
    (c.name ≠ [] → ∃ rules m,
      signalOptions c = .ok rules ∧
      rules.filter MatchOption.isMember = [WithMatchMember m] ∧
      dot ∉ m ∧
      (m = c.name ∨ ∃ i, i ++ str "." ++ m = c.name)) := by
  obtain ⟨hdot, hmany, hone⟩ := cutAt_parts c.name
  have hne := cutAt_ne_nil dot c.name
  have hfilter : (pathPart c.path).filter MatchOption.isMember = [] := by
    rw [List.filter_eq_nil_iff]
    intro o ho
    simp [(pathPart_not_name c.path o ho).1]
  constructor
  · intro hmem
    have hl : 1 < (cutAt dot c.name).length := by
      have h1 := cutAt_length_one_iff dot c.name
      have := List.length_pos.mpr hne
      by_contra hcon
      exact (h1.mp (by omega)) hmem
    refine ⟨pathPart c.path, (cutAt dot c.name).getLastD [],
      strings.Join (cutAt dot c.name).dropLast [dot], ?_, pathPart_kinds _, ?_⟩
    · rw [signalOptions_eq, namePart_eq_of_many _ hl]
    · rw [str_dot]
      exact hmany hl
  · intro hn
    by_cases hl : 1 < (cutAt dot c.name).length
    · refine ⟨_, (cutAt dot c.name).getLastD [], signalOptions_eq c, ?_, hdot,
        Or.inr ⟨strings.Join (cutAt dot c.name).dropLast [dot], ?_⟩⟩
      · rw [namePart_eq_of_many _ hl, List.filter_append, hfilter]
        rfl
      · rw [str_dot]
        exact hmany hl
    · have h1 : (cutAt dot c.name).length = 1 := by
        have := List.length_pos.mpr hne
        omega
      refine ⟨_, (cutAt dot c.name).getLastD [], signalOptions_eq c, ?_, hdot,
        Or.inl (hone h1)⟩
      rw [namePart_eq_of_one _ hn h1, List.filter_append, hfilter]
      rfl

/-- Witness of C10 at the name `org.foo.Bar`. -/
theorem signalOptions_name_lossless_witness :
    dot ∈ str "org.foo.Bar" ∧ str "org.foo.Bar" ≠ [] ∧
    (∃ pre m i, signalOptions ⟨str "/x", str "org.foo.Bar", false, []⟩
        = .ok (pre ++ [WithMatchMember m, WithMatchInterface i]) ∧
      (∀ o ∈ pre, o.isPath = true) ∧
      i ++ str "." ++ m = str "org.foo.Bar") ∧
    (∃ rules m, signalOptions ⟨str "/x", str "org.foo.Bar", false, []⟩ = .ok rules ∧
      rules.filter MatchOption.isMember = [WithMatchMember m] ∧
      dot ∉ m ∧
      (m = str "org.foo.Bar" ∨ ∃ i, i ++ str "." ++ m = str "org.foo.Bar")) :=
  ⟨by decide, by decide,
    (signalOptions_name_lossless ⟨str "/x", str "org.foo.Bar", false, []⟩).1 (by decide),
    (signalOptions_name_lossless ⟨str "/x", str "org.foo.Bar", false, []⟩).2 (by decide)⟩

/-! ## Lemmas: the once command -/

theorem once_eq (conn : Conn) (c : Context) (w : World) (v : Signal) (later : List Signal)
    (hch : w.ch = v :: later)
    (hreg : conn.AddMatchSignal (pathPart c.path ++ namePart c.name) = none) :
    once conn c w =
      match renderBody v.Body with
      | .panic p => (.panicked p,
          { w with matchCalls := w.matchCalls ++ [pathPart c.path ++ namePart c.name],
                   ch := later, closed := true })
      | .ok line => (.returned none,
          { w with matchCalls := w.matchCalls ++ [pathPart c.path ++ namePart c.name],
                   ch := later, stdout := w.stdout ++ line, closed := true }) := by
  unfold once
  simp only [signalOptions_eq, hreg, hch]
  cases renderBody v.Body <;> rfl

/-- C5: `iterfacesToStrings` panics exactly when some element of the body is not a `String`
value. When it returns, the result is as long as the body and element `i` of the body is
the `String` value of element `i` of the result. A body with another element is not
rendered: `renderBody` panics, and the `once` command writes nothing to standard output
for it. The body `[String("a"), Int(3)]` panics and does not give `a 3`. -/
theorem iterfacesToStrings_fails_iff (body : List Value) :
    ((∃ p, iterfacesToStrings body = .panic p) ↔ ∃ v ∈ body, ∀ s, v ≠ Value.String s) ∧
    ((∃ strs, iterfacesToStrings body = .ok strs) ↔ ∀ v ∈ body, ∃ s, v = Value.String s) ∧
    (∀ strs, iterfacesToStrings body = .ok strs →
      strs.length = body.length ∧
      ∀ i (hi : i < strs.length), body.get? i = some (Value.String (strs.get ⟨i, hi⟩))) ∧
    ((∃ v ∈ body, ∀ s, v ≠ Value.String s) →
      (∃ p, renderBody body = .panic p) ∧
      ∀ conn c w sender path name later, w.ch = ⟨sender, path, name, body⟩ :: later →
        (once conn c w).2.stdout = w.stdout) ∧
    iterfacesToStrings [Value.String (str "a"), Value.Int 3] = .panic .interfaceConversion ∧
    renderBody [Value.String (str "a"), Value.Int 3] ≠ .ok (str "a 3") := by
  refine ⟨?_, ?_, ?_, ?_, by decide, by decide⟩
  · constructor
    · rintro ⟨p, hp⟩
      rcases strings_or_not body with ⟨strs, rfl⟩ | hbad
      · rw [iterfacesToStrings_strings] at hp
        exact Exec.noConfusion hp
      · exact hbad
    · intro hbad
      exact ⟨_, iterfacesToStrings_panic body hbad⟩
  · constructor
    · rintro ⟨strs, hs⟩
      rcases strings_or_not body with ⟨strs2, rfl⟩ | hbad
      · intro v hv
        obtain ⟨s, _, rfl⟩ := List.mem_map.mp hv
        exact ⟨s, rfl⟩
      · rw [iterfacesToStrings_panic body hbad] at hs
        exact Exec.noConfusion hs
    · intro hall
      rcases strings_or_not body with ⟨strs, rfl⟩ | ⟨v, hv, hns⟩
      · exact ⟨strs, iterfacesToStrings_strings strs⟩
      · obtain ⟨s, hs⟩ := hall v hv
        exact absurd hs (hns s)
  · intro strs hs
    rcases strings_or_not body with ⟨strs2, rfl⟩ | hbad
    · rw [iterfacesToStrings_strings] at hs
      injection hs with hs
      subst hs
      refine ⟨by simp, ?_⟩
      intro i hi
      simp [List.getElem?_eq_getElem hi]
    · rw [iterfacesToStrings_panic body hbad] at hs
      exact Exec.noConfusion hs
  · intro hbad
    refine ⟨⟨_, renderBody_panic body hbad⟩, ?_⟩
    intro conn c w sender path name later hch
    cases hreg : conn.AddMatchSignal (pathPart c.path ++ namePart c.name) with
    | some err =>
      unfold once
      simp only [signalOptions_eq, hreg]
      rfl
    | none =>
      rw [once_eq conn c w _ later hch hreg]
      simp only [renderBody_panic body hbad]

/-- Witness of C5 at the body `[String("a"), Int(3)]` on a channel of the `once` command. -/
theorem iterfacesToStrings_fails_iff_witness :
    (∃ v ∈ [Value.String (str "a"), Value.Int 3], ∀ s, v ≠ Value.String s) ∧
    (∃ p, iterfacesToStrings [Value.String (str "a"), Value.Int 3] = .panic p) ∧
    (once ⟨fun _ => none, fun _ _ _ => none⟩ ⟨str "/x", str "N", false, []⟩
      ⟨[⟨[], str "/x", str "N", [Value.String (str "a"), Value.Int 3]⟩], false, [], [], [], [],
        false⟩).2.stdout = [] :=
  have hbad : ∃ v ∈ [Value.String (str "a"), Value.Int 3], ∀ s, v ≠ Value.String s :=
    ⟨Value.Int 3, by simp, fun s e => Value.noConfusion e⟩
  ⟨hbad,
    (iterfacesToStrings_fails_iff [Value.String (str "a"), Value.Int 3]).1.mpr hbad,
    ((iterfacesToStrings_fails_iff [Value.String (str "a"), Value.Int 3]).2.2.2.1 hbad).2
      _ _ _ _ _ _ _ rfl⟩

/-- C6: for every argument list the body that the publisher builds with
`stringsToIterfaces` has the length of the list and is the list of the `String` values of
the arguments in order; `publish` passes that body to `conn.Emit`; `iterfacesToStrings`
gives the arguments back, so the line the subscriber renders is the arguments joined with
single spaces. The arguments `a`, `b` render as `a b`. -/
theorem body_round_trip (args : List GoString) :
    (∃ body, stringsToIterfaces args = .ok body ∧
      body.length = args.length ∧
      body = args.map Value.String ∧
      (∀ conn path name verbose w,
        (publish conn ⟨path, name, verbose, args⟩ w).2.emitCalls
          = w.emitCalls ++ [(path, name, body)]) ∧
      iterfacesToStrings body = .ok args ∧
      renderBody body = .ok (strings.Join args (str " "))) ∧
    (stringsToIterfaces [str "a", str "b"] >>= renderBody) = .ok (str "a b") := by
  refine ⟨⟨_, stringsToIterfaces_eq args, by simp, rfl, ?_, iterfacesToStrings_strings args,
    renderBody_strings args⟩, by decide⟩
  intro conn path name verbose w
  unfold publish
  simp only [stringsToIterfaces_eq]
  rfl

/-- C7: `publish` does not look at the error that `conn.Emit` returns. With a connection
whose `Emit` fails, for the path `/x`, the name `N` and the arguments `a`, `b`, the action
returns `nil` and the process exits with status 0; the same holds for every connection,
context and state. -/
theorem publish_ignores_emit_error :
    (⟨fun _ => none, fun _ _ _ => some (.bus "dbus: invalid method name")⟩ : Conn).Emit
        (str "/x") (str "N") [Value.String (str "a"), Value.String (str "b")]
      = some (.bus "dbus: invalid method name") ∧
    (publish ⟨fun _ => none, fun _ _ _ => some (.bus "dbus: invalid method name")⟩
        ⟨str "/x", str "N", false, [str "a", str "b"]⟩ ⟨[], false, [], [], [], [], false⟩)
      = (.returned none,
          ⟨[], false, [], [], [], [(str "/x", str "N",
            [Value.String (str "a"), Value.String (str "b")])], true⟩) ∧
    (∀ conn c w, (publish conn c w).1 = .returned none ∧
      exitStatus (publish conn c w).1 = some 0) := by
  refine ⟨rfl, by decide, ?_⟩
  intro conn c w
  have h : (publish conn c w).1 = .returned none := by
    unfold publish
    rw [stringsToIterfaces_eq]
  rw [h]
  exact ⟨rfl, rfl⟩

/-- C8: when the registration of the filter succeeds and the first signal on the channel has
a body of `String` values only, `once` returns `nil`, takes that signal alone off the channel
(the later signals stay), appends to standard output the strings of the body joined with
single spaces and nothing else (no newline), and writes nothing to standard error. -/
theorem once_consumes_one (conn : Conn) (c : Context) (w : World) (v : Signal)
    (later : List Signal) (strs : List GoString)
    (hch : w.ch = v :: later)
    (hbody : v.Body = strs.map Value.String)
    (hreg : ∀ options, signalOptions c = .ok options → conn.AddMatchSignal options = none) :
    (once conn c w).1 = .returned none ∧
    exitStatus (once conn c w).1 = some 0 ∧
    (once conn c w).2.ch = later ∧
    (once conn c w).2.stdout = w.stdout ++ strings.Join strs (str " ") ∧
    (once conn c w).2.stderr = w.stderr := by
  have hreg2 := hreg _ (signalOptions_eq c)
  rw [once_eq conn c w v later hch hreg2, hbody, renderBody_strings]
  exact ⟨rfl, rfl, rfl, rfl, rfl⟩

/-- Witness of C8: two signals wait on the channel, the first with the body `a`, `b`. -/
theorem once_consumes_one_witness :
    (once ⟨fun _ => none, fun _ _ _ => none⟩ ⟨str "/x", str "N", false, []⟩
      ⟨[⟨[], str "/x", str "N", [Value.String (str "a"), Value.String (str "b")]⟩,
        ⟨[], str "/x", str "N", [Value.String (str "c")]⟩], false, [], [], [], [], false⟩).1
      = .returned none ∧
    (once ⟨fun _ => none, fun _ _ _ => none⟩ ⟨str "/x", str "N", false, []⟩
      ⟨[⟨[], str "/x", str "N", [Value.String (str "a"), Value.String (str "b")]⟩,
        ⟨[], str "/x", str "N", [Value.String (str "c")]⟩], false, [], [], [], [], false⟩).2.ch
      = [⟨[], str "/x", str "N", [Value.String (str "c")]⟩] ∧
    (once ⟨fun _ => none, fun _ _ _ => none⟩ ⟨str "/x", str "N", false, []⟩
      ⟨[⟨[], str "/x", str "N", [Value.String (str "a"), Value.String (str "b")]⟩,
        ⟨[], str "/x", str "N", [Value.String (str "c")]⟩], false, [], [], [], [], false⟩).2.stdout
      = [] ++ strings.Join [str "a", str "b"] (str " ") ∧
    strings.Join [str "a", str "b"] (str " ") = str "a b" :=
  have h := once_consumes_one ⟨fun _ => none, fun _ _ _ => none⟩
    ⟨str "/x", str "N", false, []⟩
    ⟨[⟨[], str "/x", str "N", [Value.String (str "a"), Value.String (str "b")]⟩,
      ⟨[], str "/x", str "N", [Value.String (str "c")]⟩], false, [], [], [], [], false⟩
    ⟨[], str "/x", str "N", [Value.String (str "a"), Value.String (str "b")]⟩
    [⟨[], str "/x", str "N", [Value.String (str "c")]⟩] [str "a", str "b"] rfl rfl
    (fun _ _ => rfl)
  ⟨h.1, h.2.2.1, h.2.2.2.1, by decide⟩

theorem namePart_no_path (name : GoString) (p : ObjectPath) :
    WithMatchPathNamespace p ∉ namePart name ∧ WithMatchObjectPath p ∉ namePart name := by
  constructor <;> intro hmem <;> exact Bool.noConfusion (namePart_kinds name _ hmem)

/-- C9, as stated, fails: the path `/*` is not empty, and for it `signalOptions` gives the
path rule `WithMatchPathNamespace` with the empty object path, so it is not the case that
every path rule built from a non-empty path carries a non-empty object path. -/
theorem signalOptions_path_nonempty_counterexample :
    str "/*" ≠ [] ∧
    signalOptions ⟨str "/*", str "", false, []⟩ = .ok [WithMatchPathNamespace []] ∧
    ¬ (∀ c : Context, c.path ≠ [] → ∀ rules, signalOptions c = .ok rules →
        ∀ p, WithMatchPathNamespace p ∈ rules ∨ WithMatchObjectPath p ∈ rules → p ≠ []) := by
  refine ⟨by decide, by decide, ?_⟩
  intro hall
  exact hall ⟨str "/*", str "", false, []⟩ (by decide) [WithMatchPathNamespace []]
    (by decide) [] (Or.inl (by simp)) rfl

/-- C9, amended: for every non-empty path other than `/*` and every name, `signalOptions`
returns a result and every object path carried by a path rule of it
(`WithMatchObjectPath`, `WithMatchPathNamespace`) is non-empty. For the path `/*` the
result starts with `WithMatchPathNamespace` of the empty object path. -/
theorem signalOptions_path_nonempty (c : Context) (h : c.path ≠ [])
    (hroot : c.path ≠ str "/*") :
    (∃ rules, signalOptions c = .ok rules ∧
      ∀ p, WithMatchPathNamespace p ∈ rules ∨ WithMatchObjectPath p ∈ rules → p ≠ []) ∧
    (∀ name verbose args, ∃ rest,
      signalOptions ⟨str "/*", name, verbose, args⟩
        = .ok (WithMatchPathNamespace [] :: rest)) := by
  constructor
  · refine ⟨_, signalOptions_eq c, ?_⟩
    intro p hp
    have hnp := namePart_no_path c.name p
    by_cases hs : ∃ q, c.path = q ++ str "/*"
    · obtain ⟨q, hq⟩ := hs
      rw [hq, pathPart_of_suffix] at hp
      simp only [List.singleton_append, List.mem_cons, MatchOption.WithMatchPathNamespace.injEq,
        hnp.1, hnp.2, or_false, false_or] at hp
      rcases hp with hp | hp
      · subst hp
        rintro rfl
        exact hroot (by rw [hq]; rfl)
      · exact MatchOption.noConfusion hp
    · rw [pathPart_of_not_suffix _ h hs] at hp
      simp only [List.singleton_append, List.mem_cons, MatchOption.WithMatchObjectPath.injEq,
        hnp.1, hnp.2, or_false, false_or] at hp
      rcases hp with hp | hp
      · exact MatchOption.noConfusion hp
      · rw [hp]
        exact h
  · intro name verbose args
    have hstar : pathPart (str "/*") = [WithMatchPathNamespace []] := by decide
    refine ⟨namePart name, ?_⟩
    rw [signalOptions_eq]
    dsimp only
    rw [hstar]
    rfl

/-- Witness of the amended C9 at the path `/a/*` and the name `org.foo.Bar`. -/
theorem signalOptions_path_nonempty_witness :
    str "/a/*" ≠ [] ∧ str "/a/*" ≠ str "/*" ∧
    ∃ rules, signalOptions ⟨str "/a/*", str "org.foo.Bar", false, []⟩ = .ok rules ∧
      ∀ p, WithMatchPathNamespace p ∈ rules ∨ WithMatchObjectPath p ∈ rules → p ≠ [] :=
  ⟨by decide, by decide,
    (signalOptions_path_nonempty ⟨str "/a/*", str "org.foo.Bar", false, []⟩
      (by decide) (by decide)).1⟩

end Dbuz
